import Mathlib

/-!
Verification of the WCDB `TimedQueue` (src/objc/source/util/timed_queue.hpp).

The C++ class keeps a `std::list<std::shared_ptr<Element>>` (`m_list`, with
`push_front` for new entries, so the front is the newest and the back the
oldest entry) together with an `std::unordered_map<Key, List::iterator>`
(`m_map`) from keys to the list node holding that key's entry, a fixed
delay `m_delay`, and a shutdown flag `m_break`.

Embedding choices:
* time instants (`std::chrono::steady_clock::time_point`) are natural
  numbers; durations are natural numbers of the same unit;
* a list node (the target of a stored iterator) is modelled as a pair
  `(id, element)` where `id : Nat` is a fresh identifier allocated at
  insertion time (field `nextId` of the state is the allocator); `m_map`
  maps keys to node ids, exactly as the C++ map maps keys to iterators;
* the mutex and condition variable are not part of the state; the consumer
  loop of `waitUntilExpired` is run over an explicit list of successive
  clock readings, and the call is modelled as returning `none` when it has
  not returned (blocked on the condition variable with nobody to wake it,
  or the supplied clock readings ran out while it was still polling).
-/

namespace WCDB

/-- The `Element` struct of the source: a key, the absolute expiration
instant (`now + delay` at insertion), and the payload. -/
structure Element (Key Info : Type) where
  key : Key
  time : Nat
  info : Info
deriving DecidableEq

/-- State of `TimedQueue<Key, Info>`.  `m_list` holds `(node id, element)`
pairs, front = newest; `m_map` maps each live key to the id of its list
node (the stored iterator); `nextId` allocates fresh node ids. -/
structure TimedQueue (Key Info : Type) where
  m_map : List (Key × Nat)
  m_list : List (Nat × Element Key Info)
  m_delay : Nat
  m_break : Bool
  nextId : Nat
deriving DecidableEq

/-- The constructor `TimedQueue(int delay)`: empty structures, flag clear. -/
def TimedQueue.init (delay : Nat) {Key Info : Type} : TimedQueue Key Info :=
  ⟨[], [], delay, false, 0⟩

variable {Key Info : Type} [DecidableEq Key]

/-- `m_map.find(key)`: the node id mapped to `key`, if any. -/
def mapFind (m : List (Key × Nat)) (key : Key) : Option Nat :=
  match m with
  | [] => none
  | p :: rest => if p.1 = key then some p.2 else mapFind rest key

/-- `TimedQueue::unsafeRemove`: look `key` up in `m_map`; if found, erase
the designated node from `m_list` (`m_list.erase(iter->second)`, one node)
and the mapping from `m_map` (`m_map.erase(iter)`, one mapping). -/
def unsafeRemove (s : TimedQueue Key Info) (key : Key) : TimedQueue Key Info :=
  match mapFind s.m_map key with
  | none => s
  | some i =>
    { s with
      m_list := s.m_list.eraseP (fun n => decide (n.1 = i)),
      m_map := s.m_map.eraseP (fun p => decide (p.1 = key)) }

/-- `TimedQueue::remove` (the public removal: lock, then `unsafeRemove`). -/
def remove (s : TimedQueue Key Info) (key : Key) : TimedQueue Key Info :=
  unsafeRemove s key

/-- `TimedQueue::notify`: set `m_break` (and signal the condition variable,
which has no counterpart in the state). -/
def notify (s : TimedQueue Key Info) : TimedQueue Key Info :=
  { s with m_break := true }

/-- `TimedQueue::reQueue` at clock reading `now`: `unsafeRemove(key)`, then
push a new element `{key, now + m_delay, info}` at the front of `m_list`
and insert `key ↦ (iterator to it)` into `m_map`. -/
def reQueue (s : TimedQueue Key Info) (key : Key) (info : Info) (now : Nat) :
    TimedQueue Key Info :=
  let s1 := unsafeRemove s key
  { s1 with
    m_list := (s1.nextId, ⟨key, now + s1.m_delay, info⟩) :: s1.m_list,
    m_map := (key, s1.nextId) :: s1.m_map,
    nextId := s1.nextId + 1 }

/-- One iteration of the polling loop of `waitUntilExpired`, at clock
reading `now`: inspect `m_list.back()` (the oldest entry); if
`now > element->time`, pop it, erase its key from `m_map` and deliver
`(key, info)` to the callback; otherwise leave the state alone and report
the duration `element->time - now` passed to `sleep_for`.  (The loop is
only entered with `m_list` non-empty; the `getLast? = none` branch is
unreachable there and returns the state unchanged.) -/
def checkStep (s : TimedQueue Key Info) (now : Nat) :
    TimedQueue Key Info × Option (Key × Info) × Nat :=
  match s.m_list.getLast? with
  | none => (s, none, 0)
  | some n =>
    if n.2.time < now then
      ({ s with
         m_list := s.m_list.dropLast,
         m_map := s.m_map.eraseP (fun p => decide (p.1 = n.2.key)) },
       some (n.2.key, n.2.info), 0)
    else (s, none, n.2.time - now)

/-- The polling loop of `waitUntilExpired` (`while (!get) ...`), run over
the supplied successive clock readings; returns the final state and the
pair delivered to `onExpired`, or `none` when the readings ran out before
the oldest entry expired. -/
def waitLoop : TimedQueue Key Info → List Nat → Option (TimedQueue Key Info × Key × Info)
  | _, [] => none
  | s, now :: rest =>
    match (checkStep s now).2.1 with
    | some d => some ((checkStep s now).1, d)
    | none => waitLoop (checkStep s now).1 rest

/-- `TimedQueue::waitUntilExpired`, modelled over an explicit list of
successive clock readings.  `none`: the call has not returned (it blocked
on the condition variable with the queue empty and `m_break` clear, or the
supplied readings ran out mid loop).  `some (s, none)`: the call returned
without invoking the callback.  `some (s, some (k, i))`: the call returned
after invoking `onExpired(k, i)` exactly once. -/
def waitUntilExpired (s : TimedQueue Key Info) (clocks : List Nat) :
    Option (TimedQueue Key Info × Option (Key × Info)) :=
  if s.m_list.isEmpty then
    if s.m_break then some (s, none) else none
  else
    (waitLoop s clocks).map (fun r => (r.1, some r.2))

/-- The C++ `waitUntilExpired` has return type `void`: when the call
returns, the value the caller receives over the return channel is the
unit value, whatever happened inside. -/
def voidReturn (r : Option (TimedQueue Key Info × Option (Key × Info))) : Option Unit :=
  r.map (fun _ => ())

/-- One public operation of the queue, for reachability statements. -/
inductive Op (Key Info : Type) where
  | reQueueOp (key : Key) (info : Info)
  | removeOp (key : Key)
  | notifyOp
  | waitOp (clocks : List Nat)

/-- Apply one operation at clock reading `now`.  A `waitOp` that does not
return (blocked forever) leaves the state as it is. -/
def applyOp (s : TimedQueue Key Info) (now : Nat) : Op Key Info → TimedQueue Key Info
  | .reQueueOp key info => reQueue s key info now
  | .removeOp key => remove s key
  | .notifyOp => notify s
  | .waitOp clocks => ((waitUntilExpired s clocks).map Prod.fst).getD s

/-- Run a trace of timestamped operations from a given state. -/
def runFrom (s : TimedQueue Key Info) (tr : List (Nat × Op Key Info)) : TimedQueue Key Info :=
  tr.foldl (fun t p => applyOp t p.1 p.2) s

/-- Run a trace of timestamped operations from a fresh queue. -/
def run (delay : Nat) (tr : List (Nat × Op Key Info)) : TimedQueue Key Info :=
  runFrom (TimedQueue.init delay) tr

/-- Structural consistency of `m_map` and `m_list` (the iterator-validity
invariant of the C++ class), plus freshness bounds for the id allocator. -/
def WF (s : TimedQueue Key Info) : Prop :=
  (∀ p ∈ s.m_map, ∃ n ∈ s.m_list, n.1 = p.2 ∧ n.2.key = p.1) ∧
  (∀ n ∈ s.m_list, (n.2.key, n.1) ∈ s.m_map) ∧
  (s.m_list.map Prod.fst).Nodup ∧
  (s.m_list.map (fun n => n.2.key)).Nodup ∧
  (s.m_map.map Prod.fst).Nodup ∧
  (∀ n ∈ s.m_list, n.1 < s.nextId) ∧
  (∀ p ∈ s.m_map, p.2 < s.nextId)

/-- Expiration times decrease (weakly) from the front (newest) to the back
(oldest) of `m_list`: insertion order equals expiration order. -/
def timesDesc (s : TimedQueue Key Info) : Prop :=
  s.m_list.Pairwise (fun a b => b.2.time ≤ a.2.time)

/-- All expiration times are at most `now + m_delay`: entries were
inserted at clock readings not later than `now`. -/
def timesBounded (s : TimedQueue Key Info) (now : Nat) : Prop :=
  ∀ n ∈ s.m_list, n.2.time ≤ now + s.m_delay

/-- Repeated consumer calls (each given the single clock reading `now`),
collecting the pairs delivered to the callback, with explicit fuel. -/
def drain (s : TimedQueue Key Info) (now : Nat) : Nat → List (Key × Info)
  | 0 => []
  | fuel + 1 =>
    match waitUntilExpired s [now] with
    | some (s1, some d) => d :: drain s1 now fuel
    | _ => []

instance (s : TimedQueue Key Info) : Decidable (WF s) := by
  unfold WF
  infer_instance

instance (s : TimedQueue Key Info) : Decidable (timesDesc s) := by
  unfold timesDesc
  infer_instance

instance (s : TimedQueue Key Info) (now : Nat) : Decidable (timesBounded s now) := by
  unfold timesBounded
  infer_instance

/-! Projection lemmas: which fields each operation leaves alone. -/

@[simp]
theorem unsafeRemove_delay (s : TimedQueue Key Info) (key : Key) :
    (unsafeRemove s key).m_delay = s.m_delay := by
  unfold unsafeRemove
  cases mapFind s.m_map key <;> rfl

@[simp]
theorem unsafeRemove_break (s : TimedQueue Key Info) (key : Key) :
    (unsafeRemove s key).m_break = s.m_break := by
  unfold unsafeRemove
  cases mapFind s.m_map key <;> rfl

@[simp]
theorem unsafeRemove_nextId (s : TimedQueue Key Info) (key : Key) :
    (unsafeRemove s key).nextId = s.nextId := by
  unfold unsafeRemove
  cases mapFind s.m_map key <;> rfl

theorem unsafeRemove_list_sublist (s : TimedQueue Key Info) (key : Key) :
    List.Sublist (unsafeRemove s key).m_list s.m_list := by
  unfold unsafeRemove
  cases mapFind s.m_map key with
  | none => exact List.Sublist.refl _
  | some i => exact List.eraseP_sublist _

@[simp]
theorem checkStep_delay (s : TimedQueue Key Info) (now : Nat) :
    (checkStep s now).1.m_delay = s.m_delay := by
  unfold checkStep
  cases s.m_list.getLast? with
  | none => rfl
  | some n =>
    by_cases h : n.2.time < now <;> simp [h]

@[simp]
theorem checkStep_break (s : TimedQueue Key Info) (now : Nat) :
    (checkStep s now).1.m_break = s.m_break := by
  unfold checkStep
  cases s.m_list.getLast? with
  | none => rfl
  | some n =>
    by_cases h : n.2.time < now <;> simp [h]

@[simp]
theorem checkStep_nextId (s : TimedQueue Key Info) (now : Nat) :
    (checkStep s now).1.nextId = s.nextId := by
  unfold checkStep
  cases s.m_list.getLast? with
  | none => rfl
  | some n =>
    by_cases h : n.2.time < now <;> simp [h]

theorem checkStep_list_sublist (s : TimedQueue Key Info) (now : Nat) :
    List.Sublist (checkStep s now).1.m_list s.m_list := by
  unfold checkStep
  cases s.m_list.getLast? with
  | none => exact List.Sublist.refl _
  | some n =>
    by_cases h : n.2.time < now
    · simpa [h] using List.dropLast_sublist s.m_list
    · simp [h]

/-! Facts about `mapFind`. -/

theorem mapFind_eq_none_iff (m : List (Key × Nat)) (key : Key) :
    mapFind m key = none ↔ ∀ p ∈ m, p.1 ≠ key := by
  induction m with
  | nil => simp [mapFind]
  | cons p rest ih =>
    simp only [mapFind]
    by_cases h : p.1 = key
    · simp [h]
    · simp [h, ih]

theorem mem_of_mapFind_eq_some {m : List (Key × Nat)} {key : Key} {i : Nat}
    (h : mapFind m key = some i) : (key, i) ∈ m := by
  induction m with
  | nil => simp [mapFind] at h
  | cons p rest ih =>
    simp only [mapFind] at h
    by_cases hp : p.1 = key
    · rw [if_pos hp] at h
      cases h
      have hp2 : p = (key, p.2) := Prod.ext hp rfl
      rw [← hp2]
      exact List.mem_cons_self _ _
    · rw [if_neg hp] at h
      exact List.mem_cons_of_mem _ (ih h)

/-! Under a `Nodup` image, erasing the first hit equals filtering. -/

theorem eraseP_eq_filter_of_nodup {α β : Type _} [DecidableEq β] (f : α → β) (v : β) :
    ∀ l : List α, (l.map f).Nodup →
      l.eraseP (fun x => decide (f x = v)) = l.filter (fun x => !decide (f x = v))
  | [], _ => rfl
  | a :: t, h => by
    rw [List.map_cons, List.nodup_cons] at h
    obtain ⟨ha, ht⟩ := h
    by_cases hav : f a = v
    · have h1 : (a :: t).eraseP (fun x => decide (f x = v)) = t :=
        List.eraseP_cons_of_pos (by simp [hav])
      have h3 : t.filter (fun x => !decide (f x = v)) = t := by
        apply List.filter_eq_self.mpr
        intro x hx
        have hxv : f x ≠ v := by
          intro hxv
          exact ha (by rw [hav, ← hxv]; exact List.mem_map_of_mem f hx)
        simp [hxv]
      rw [h1, List.filter_cons, h3]
      simp [hav]
    · have h1 : (a :: t).eraseP (fun x => decide (f x = v)) =
          a :: t.eraseP (fun x => decide (f x = v)) :=
        List.eraseP_cons_of_neg (by simp [hav])
      rw [h1, List.filter_cons, eraseP_eq_filter_of_nodup f v t ht]
      simp [hav]

/-- On a well-formed state, `unsafeRemove key` is exactly: drop the (at most
one) entry with that key from the sequence, and the (at most one) mapping
for that key from the index. -/
theorem unsafeRemove_eq_of_wf (s : TimedQueue Key Info) (key : Key) (h : WF s) :
    unsafeRemove s key =
      { s with
        m_list := s.m_list.filter (fun n => !decide (n.2.key = key)),
        m_map := s.m_map.filter (fun p => !decide (p.1 = key)) } := by
  obtain ⟨h1, h2, hids, hkeys, hmk, _, _⟩ := h
  cases hf : mapFind s.m_map key with
  | none =>
    simp only [unsafeRemove, hf]
    have hnk : ∀ p ∈ s.m_map, p.1 ≠ key := (mapFind_eq_none_iff _ _).mp hf
    have hmapf : s.m_map.filter (fun p => !decide (p.1 = key)) = s.m_map :=
      List.filter_eq_self.mpr (fun p hp => by simp [hnk p hp])
    have hlistf : s.m_list.filter (fun n => !decide (n.2.key = key)) = s.m_list :=
      List.filter_eq_self.mpr (fun n hn => by
        have : n.2.key ≠ key := fun hk => hnk _ (h2 n hn) hk
        simp [this])
    rw [hmapf, hlistf]
  | some i =>
    simp only [unsafeRemove, hf]
    have hmem : (key, i) ∈ s.m_map := mem_of_mapFind_eq_some hf
    obtain ⟨n0, hn0, hn0i, hn0k⟩ := h1 _ hmem
    have hm : s.m_map.eraseP (fun p => decide (p.1 = key)) =
        s.m_map.filter (fun p => !decide (p.1 = key)) :=
      eraseP_eq_filter_of_nodup Prod.fst key s.m_map hmk
    have hl1 : s.m_list.eraseP (fun n => decide (n.1 = i)) =
        s.m_list.filter (fun n => !decide (n.1 = i)) :=
      eraseP_eq_filter_of_nodup Prod.fst i s.m_list hids
    have hl2 : s.m_list.filter (fun n => !decide (n.1 = i)) =
        s.m_list.filter (fun n => !decide (n.2.key = key)) := by
      apply List.filter_congr
      intro n hn
      have hiff : n.1 = i ↔ n.2.key = key := by
        constructor
        · intro hni
          have hne : n = n0 := List.inj_on_of_nodup_map hids hn hn0 (by rw [hni, hn0i])
          rw [hne, hn0k]
        · intro hnk2
          have hne : n = n0 := List.inj_on_of_nodup_map hkeys hn hn0 (by rw [hnk2, hn0k])
          rw [hne, hn0i]
      simp [hiff]
    rw [hm, hl1, hl2]

theorem unsafeRemove_key_gone (s : TimedQueue Key Info) (key : Key) (h : WF s) :
    (∀ n ∈ (unsafeRemove s key).m_list, n.2.key ≠ key) ∧
    (∀ p ∈ (unsafeRemove s key).m_map, p.1 ≠ key) := by
  rw [unsafeRemove_eq_of_wf s key h]
  constructor
  · intro n hn
    rw [List.mem_filter] at hn
    simpa using hn.2
  · intro p hp
    rw [List.mem_filter] at hp
    simpa using hp.2

theorem wf_init (delay : Nat) : WF (TimedQueue.init delay : TimedQueue Key Info) := by
  unfold WF TimedQueue.init
  simp

theorem wf_unsafeRemove (s : TimedQueue Key Info) (key : Key) (h : WF s) :
    WF (unsafeRemove s key) := by
  have heq := unsafeRemove_eq_of_wf s key h
  obtain ⟨h1, h2, hids, hkeys, hmk, hbl, hbm⟩ := h
  rw [heq]
  unfold WF
  dsimp only
  refine ⟨?_, ?_, ?_, ?_, ?_, ?_, ?_⟩
  · intro p hp
    rw [List.mem_filter] at hp
    obtain ⟨n, hn, hni, hnk⟩ := h1 p hp.1
    refine ⟨n, List.mem_filter.mpr ⟨hn, ?_⟩, hni, hnk⟩
    have hne : p.1 ≠ key := by simpa using hp.2
    simp [hnk, hne]
  · intro n hn
    rw [List.mem_filter] at hn
    exact List.mem_filter.mpr ⟨h2 n hn.1, hn.2⟩
  · exact List.Nodup.sublist (List.Sublist.map _ (List.filter_sublist _)) hids
  · exact List.Nodup.sublist (List.Sublist.map _ (List.filter_sublist _)) hkeys
  · exact List.Nodup.sublist (List.Sublist.map _ (List.filter_sublist _)) hmk
  · intro n hn
    rw [List.mem_filter] at hn
    exact hbl n hn.1
  · intro p hp
    rw [List.mem_filter] at hp
    exact hbm p hp.1

theorem wf_remove (s : TimedQueue Key Info) (key : Key) (h : WF s) :
    WF (remove s key) :=
  wf_unsafeRemove s key h

theorem wf_reQueue (s : TimedQueue Key Info) (key : Key) (info : Info) (now : Nat)
    (h : WF s) : WF (reQueue s key info now) := by
  have hgone := unsafeRemove_key_gone s key h
  have h1 := wf_unsafeRemove s key h
  simp only [reQueue]
  obtain ⟨t1, t2, tids, tkeys, tmk, tbl, tbm⟩ := h1
  obtain ⟨gl, gm⟩ := hgone
  unfold WF
  dsimp only
  refine ⟨?_, ?_, ?_, ?_, ?_, ?_, ?_⟩
  · intro p hp
    rcases List.mem_cons.mp hp with hp | hp
    · subst hp
      exact ⟨_, List.mem_cons_self _ _, rfl, rfl⟩
    · obtain ⟨n, hn, hni, hnk⟩ := t1 p hp
      exact ⟨n, List.mem_cons_of_mem _ hn, hni, hnk⟩
  · intro n hn
    rcases List.mem_cons.mp hn with hn | hn
    · subst hn
      exact List.mem_cons_self _ _
    · exact List.mem_cons_of_mem _ (t2 n hn)
  · rw [List.map_cons, List.nodup_cons]
    refine ⟨?_, tids⟩
    intro hmem
    obtain ⟨n, hn, hfn⟩ := List.mem_map.mp hmem
    exact absurd hfn (Nat.ne_of_lt (tbl n hn))
  · rw [List.map_cons, List.nodup_cons]
    refine ⟨?_, tkeys⟩
    intro hmem
    obtain ⟨n, hn, hfn⟩ := List.mem_map.mp hmem
    exact gl n hn hfn
  · rw [List.map_cons, List.nodup_cons]
    refine ⟨?_, tmk⟩
    intro hmem
    obtain ⟨p, hp, hfp⟩ := List.mem_map.mp hmem
    exact gm p hp hfp
  · intro n hn
    rcases List.mem_cons.mp hn with hn | hn
    · subst hn
      exact Nat.lt_succ_self _
    · exact Nat.lt_succ_of_lt (tbl n hn)
  · intro p hp
    rcases List.mem_cons.mp hp with hp | hp
    · subst hp
      exact Nat.lt_succ_self _
    · exact Nat.lt_succ_of_lt (tbm p hp)

theorem dropLast_append_of_getLast? {α : Type _} {l : List α} {a : α}
    (h : l.getLast? = some a) : l.dropLast ++ [a] = l := by
  have hne : l ≠ [] := by
    intro he
    rw [he] at h
    simp at h
  have h2 := List.getLast?_eq_getLast l hne
  rw [h2] at h
  cases h
  exact List.dropLast_append_getLast hne

theorem not_mem_of_nodup_concat {α : Type _} {xs : List α} {x : α}
    (h : (xs ++ [x]).Nodup) : x ∉ xs := by
  intro hx
  rw [List.nodup_append] at h
  exact h.2.2 hx (List.mem_singleton_self x)

/-- The state produced by the delivering branch of the polling loop
(`pop_back` plus `m_map.erase(key)`) is well formed. -/
theorem wf_pop (s : TimedQueue Key Info) (l0 : List (Nat × Element Key Info))
    (n : Nat × Element Key Info) (hl0 : s.m_list = l0 ++ [n]) (h : WF s) :
    WF { s with m_list := s.m_list.dropLast,
                m_map := s.m_map.eraseP (fun p => decide (p.1 = n.2.key)) } := by
  obtain ⟨h1, h2, hids, hkeys, hmk, hbl, hbm⟩ := h
  have hkn : n.2.key ∉ l0.map (fun m => m.2.key) := by
    have hk2 : (l0.map (fun m => m.2.key) ++ [n.2.key]).Nodup := by
      rw [hl0, List.map_append] at hkeys
      exact hkeys
    exact not_mem_of_nodup_concat hk2
  have herase : s.m_map.eraseP (fun p => decide (p.1 = n.2.key)) =
      s.m_map.filter (fun p => !decide (p.1 = n.2.key)) :=
    eraseP_eq_filter_of_nodup Prod.fst n.2.key s.m_map hmk
  rw [herase, hl0, List.dropLast_concat]
  unfold WF
  dsimp only
  refine ⟨?_, ?_, ?_, ?_, ?_, ?_, ?_⟩
  · intro p hp
    rw [List.mem_filter] at hp
    have hpk : p.1 ≠ n.2.key := by simpa using hp.2
    obtain ⟨m, hm, hmi, hmk2⟩ := h1 p hp.1
    rw [hl0] at hm
    rcases List.mem_append.mp hm with hm | hm
    · exact ⟨m, hm, hmi, hmk2⟩
    · rw [List.mem_singleton] at hm
      subst hm
      exact absurd hmk2.symm hpk
  · intro m hm
    have hmem : m ∈ s.m_list := by
      rw [hl0]
      exact List.mem_append.mpr (Or.inl hm)
    refine List.mem_filter.mpr ⟨h2 m hmem, ?_⟩
    have : m.2.key ≠ n.2.key := by
      intro he
      exact hkn (he ▸ List.mem_map_of_mem _ hm)
    simp [this]
  · refine List.Nodup.sublist ?_ hids
    rw [hl0]
    exact List.Sublist.map _ (List.sublist_append_left _ _)
  · refine List.Nodup.sublist ?_ hkeys
    rw [hl0]
    exact List.Sublist.map _ (List.sublist_append_left _ _)
  · exact List.Nodup.sublist (List.Sublist.map _ (List.filter_sublist _)) hmk
  · intro m hm
    refine hbl m ?_
    rw [hl0]
    exact List.mem_append.mpr (Or.inl hm)
  · intro p hp
    rw [List.mem_filter] at hp
    exact hbm p hp.1

theorem checkStep_eq_empty (s : TimedQueue Key Info) (now : Nat)
    (hl : s.m_list.getLast? = none) : checkStep s now = (s, none, 0) := by
  unfold checkStep
  rw [hl]

theorem checkStep_eq_deliver (s : TimedQueue Key Info) (now : Nat)
    {n : Nat × Element Key Info} (hl : s.m_list.getLast? = some n)
    (hn : n.2.time < now) :
    checkStep s now =
      ({ s with m_list := s.m_list.dropLast,
                m_map := s.m_map.eraseP (fun p => decide (p.1 = n.2.key)) },
       some (n.2.key, n.2.info), 0) := by
  unfold checkStep
  rw [hl]
  dsimp only
  rw [if_pos hn]

theorem checkStep_eq_sleep (s : TimedQueue Key Info) (now : Nat)
    {n : Nat × Element Key Info} (hl : s.m_list.getLast? = some n)
    (hn : ¬n.2.time < now) :
    checkStep s now = (s, none, n.2.time - now) := by
  unfold checkStep
  rw [hl]
  dsimp only
  rw [if_neg hn]

theorem wf_checkStep (s : TimedQueue Key Info) (now : Nat) (h : WF s) :
    WF (checkStep s now).1 := by
  cases hl : s.m_list.getLast? with
  | none =>
    rw [checkStep_eq_empty s now hl]
    exact h
  | some n =>
    by_cases hn : n.2.time < now
    · rw [checkStep_eq_deliver s now hl hn]
      have hdec := dropLast_append_of_getLast? hl
      exact wf_pop s s.m_list.dropLast n hdec.symm h
    · rw [checkStep_eq_sleep s now hl hn]
      exact h

theorem wf_waitLoop :
    ∀ (clocks : List Nat) (s : TimedQueue Key Info) r,
      waitLoop s clocks = some r → WF s → WF r.1
  | [], s, r => by
    intro h _
    simp [waitLoop] at h
  | now :: rest, s, r => by
    intro h hw
    rw [waitLoop] at h
    cases hc : (checkStep s now).2.1 with
    | some d =>
      rw [hc] at h
      cases h
      exact wf_checkStep s now hw
    | none =>
      rw [hc] at h
      exact wf_waitLoop rest _ r h (wf_checkStep s now hw)

theorem wf_waitUntilExpired (s : TimedQueue Key Info) (clocks : List Nat)
    (r : TimedQueue Key Info × Option (Key × Info))
    (h : waitUntilExpired s clocks = some r) (hw : WF s) : WF r.1 := by
  unfold waitUntilExpired at h
  by_cases he : s.m_list.isEmpty
  · rw [if_pos he] at h
    by_cases hb : s.m_break
    · rw [if_pos hb] at h
      cases h
      exact hw
    · rw [if_neg hb] at h
      cases h
  · rw [if_neg he] at h
    cases hl : waitLoop s clocks with
    | none =>
      rw [hl] at h
      cases h
    | some q =>
      rw [hl] at h
      cases h
      exact wf_waitLoop clocks s q hl hw

theorem wf_applyOp (s : TimedQueue Key Info) (now : Nat) (op : Op Key Info)
    (h : WF s) : WF (applyOp s now op) := by
  cases op with
  | reQueueOp key info => exact wf_reQueue s key info now h
  | removeOp key => exact wf_remove s key h
  | notifyOp => exact h
  | waitOp clocks =>
    show WF (((waitUntilExpired s clocks).map Prod.fst).getD s)
    cases hr : waitUntilExpired s clocks with
    | none => exact h
    | some r => exact wf_waitUntilExpired s clocks r hr h

theorem wf_runFrom :
    ∀ (tr : List (Nat × Op Key Info)) (s : TimedQueue Key Info), WF s → WF (runFrom s tr)
  | [], s => fun h => h
  | p :: rest, s => fun h =>
    wf_runFrom rest (applyOp s p.1 p.2) (wf_applyOp s p.1 p.2 h)

theorem wf_run (delay : Nat) (tr : List (Nat × Op Key Info)) : WF (run delay tr) :=
  wf_runFrom tr (TimedQueue.init delay) (wf_init delay)

@[simp]
theorem reQueue_break (s : TimedQueue Key Info) (key : Key) (info : Info) (now : Nat) :
    (reQueue s key info now).m_break = s.m_break := by
  simp [reQueue]

@[simp]
theorem reQueue_delay (s : TimedQueue Key Info) (key : Key) (info : Info) (now : Nat) :
    (reQueue s key info now).m_delay = s.m_delay := by
  simp [reQueue]

theorem waitLoop_fields :
    ∀ (clocks : List Nat) (s : TimedQueue Key Info) r,
      waitLoop s clocks = some r →
      r.1.m_delay = s.m_delay ∧ r.1.m_break = s.m_break ∧ r.1.nextId = s.nextId
  | [], s, r => by
    intro h
    simp [waitLoop] at h
  | now :: rest, s, r => by
    intro h
    rw [waitLoop] at h
    cases hc : (checkStep s now).2.1 with
    | some d =>
      rw [hc] at h
      cases h
      exact ⟨checkStep_delay s now, checkStep_break s now, checkStep_nextId s now⟩
    | none =>
      rw [hc] at h
      have ih := waitLoop_fields rest _ r h
      simp only [checkStep_delay, checkStep_break, checkStep_nextId] at ih
      exact ih

theorem waitLoop_list_sublist :
    ∀ (clocks : List Nat) (s : TimedQueue Key Info) r,
      waitLoop s clocks = some r → List.Sublist r.1.m_list s.m_list
  | [], s, r => by
    intro h
    simp [waitLoop] at h
  | now :: rest, s, r => by
    intro h
    rw [waitLoop] at h
    cases hc : (checkStep s now).2.1 with
    | some d =>
      rw [hc] at h
      cases h
      exact checkStep_list_sublist s now
    | none =>
      rw [hc] at h
      exact List.Sublist.trans (waitLoop_list_sublist rest _ r h) (checkStep_list_sublist s now)

theorem waitUntilExpired_fields (s : TimedQueue Key Info) (clocks : List Nat)
    (r : TimedQueue Key Info × Option (Key × Info))
    (h : waitUntilExpired s clocks = some r) :
    r.1.m_delay = s.m_delay ∧ r.1.m_break = s.m_break ∧ r.1.nextId = s.nextId ∧
      List.Sublist r.1.m_list s.m_list := by
  unfold waitUntilExpired at h
  by_cases he : s.m_list.isEmpty
  · rw [if_pos he] at h
    by_cases hb : s.m_break
    · rw [if_pos hb] at h
      cases h
      exact ⟨rfl, rfl, rfl, List.Sublist.refl _⟩
    · rw [if_neg hb] at h
      cases h
  · rw [if_neg he] at h
    cases hl : waitLoop s clocks with
    | none =>
      rw [hl] at h
      cases h
    | some q =>
      rw [hl] at h
      cases h
      obtain ⟨d, b, n⟩ := waitLoop_fields clocks s q hl
      exact ⟨d, b, n, waitLoop_list_sublist clocks s q hl⟩

theorem applyOp_break_mono (s : TimedQueue Key Info) (now : Nat) (op : Op Key Info)
    (h : s.m_break = true) : (applyOp s now op).m_break = true := by
  cases op with
  | reQueueOp key info =>
    show (reQueue s key info now).m_break = true
    rw [reQueue_break]
    exact h
  | removeOp key =>
    show (unsafeRemove s key).m_break = true
    rw [unsafeRemove_break]
    exact h
  | notifyOp => rfl
  | waitOp clocks =>
    show (((waitUntilExpired s clocks).map Prod.fst).getD s).m_break = true
    cases hr : waitUntilExpired s clocks with
    | none => exact h
    | some r =>
      obtain ⟨_, hb, _, _⟩ := waitUntilExpired_fields s clocks r hr
      show r.1.m_break = true
      rw [hb]
      exact h

theorem applyOp_delay (s : TimedQueue Key Info) (now : Nat) (op : Op Key Info) :
    (applyOp s now op).m_delay = s.m_delay := by
  cases op with
  | reQueueOp key info => exact reQueue_delay s key info now
  | removeOp key => exact unsafeRemove_delay s key
  | notifyOp => rfl
  | waitOp clocks =>
    show (((waitUntilExpired s clocks).map Prod.fst).getD s).m_delay = s.m_delay
    cases hr : waitUntilExpired s clocks with
    | none => rfl
    | some r => exact (waitUntilExpired_fields s clocks r hr).1

/-! Preservation of the fixed-delay sortedness invariant. -/

theorem step_sorted (s : TimedQueue Key Info) (now now' : Nat) (op : Op Key Info)
    (hd : timesDesc s) (hb : timesBounded s now) (hle : now ≤ now') :
    timesDesc (applyOp s now' op) ∧ timesBounded (applyOp s now' op) now' := by
  have hmono : ∀ t : TimedQueue Key Info,
      List.Sublist t.m_list s.m_list → t.m_delay = s.m_delay →
      timesDesc t ∧ timesBounded t now' := by
    intro t hsub hdel
    constructor
    · exact List.Pairwise.sublist hsub hd
    · intro n hn
      have h1 := hb n (hsub.subset hn)
      rw [hdel]
      calc n.2.time ≤ now + s.m_delay := h1
        _ ≤ now' + s.m_delay := Nat.add_le_add_right hle _
  cases op with
  | removeOp key =>
    exact hmono (remove s key) (unsafeRemove_list_sublist s key) (unsafeRemove_delay s key)
  | notifyOp => exact hmono (notify s) (List.Sublist.refl _) rfl
  | waitOp clocks =>
    show timesDesc (((waitUntilExpired s clocks).map Prod.fst).getD s) ∧
      timesBounded (((waitUntilExpired s clocks).map Prod.fst).getD s) now'
    cases hr : waitUntilExpired s clocks with
    | none => exact hmono s (List.Sublist.refl _) rfl
    | some r =>
      obtain ⟨d, _, _, sub⟩ := waitUntilExpired_fields s clocks r hr
      exact hmono r.1 sub d
  | reQueueOp key info =>
    have hsub := unsafeRemove_list_sublist s key
    have hdel := unsafeRemove_delay s key
    have hd1 : timesDesc (unsafeRemove s key) := List.Pairwise.sublist hsub hd
    have hb1 : ∀ n ∈ (unsafeRemove s key).m_list, n.2.time ≤ now + s.m_delay :=
      fun n hn => hb n (hsub.subset hn)
    constructor
    · show timesDesc (reQueue s key info now')
      unfold timesDesc
      simp only [reQueue]
      rw [List.pairwise_cons]
      constructor
      · intro b hb2
        show b.2.time ≤ now' + (unsafeRemove s key).m_delay
        rw [hdel]
        calc b.2.time ≤ now + s.m_delay := hb1 b hb2
          _ ≤ now' + s.m_delay := Nat.add_le_add_right hle _
      · exact hd1
    · intro n hn
      show n.2.time ≤ now' + (reQueue s key info now').m_delay
      rw [reQueue_delay]
      have hn2 : n ∈ ((unsafeRemove s key).nextId,
          (⟨key, now' + (unsafeRemove s key).m_delay, info⟩ : Element Key Info)) ::
          (unsafeRemove s key).m_list := hn
      rcases List.mem_cons.mp hn2 with hn | hn
      · subst hn
        show now' + (unsafeRemove s key).m_delay ≤ now' + s.m_delay
        rw [hdel]
      · rw [← hdel]
        calc n.2.time ≤ now + (unsafeRemove s key).m_delay := by
              rw [hdel]
              exact hb1 n hn
          _ ≤ now' + (unsafeRemove s key).m_delay := Nat.add_le_add_right hle _

theorem runFrom_sorted :
    ∀ (tr : List (Nat × Op Key Info)) (s : TimedQueue Key Info) (now0 : Nat),
      timesDesc s → timesBounded s now0 →
      List.Chain (fun a b => a ≤ b) now0 (tr.map Prod.fst) →
      timesDesc (runFrom s tr)
  | [], _, _ => fun hd _ _ => hd
  | (t, op) :: rest, s, now0 => fun hd hb hch => by
    rw [List.map_cons, List.chain_cons] at hch
    have hstep := step_sorted s now0 t op hd hb hch.1
    exact runFrom_sorted rest _ t hstep.1 hstep.2 hch.2

theorem chain_zero_of_chain' (ts : List Nat)
    (h : List.Chain' (fun a b => a ≤ b) ts) :
    List.Chain (fun a b => a ≤ b) 0 ts := by
  cases ts with
  | nil => exact List.Chain.nil
  | cons t rest => exact List.Chain.cons (Nat.zero_le t) h

/-! Analysis of the consumer loop: what a returning call delivered. -/

theorem checkStep_none_state (s : TimedQueue Key Info) (now : Nat)
    (hc : (checkStep s now).2.1 = none) : (checkStep s now).1 = s := by
  cases hl : s.m_list.getLast? with
  | none => rw [checkStep_eq_empty s now hl]
  | some n =>
    by_cases hn : n.2.time < now
    · rw [checkStep_eq_deliver s now hl hn] at hc
      have h0 : (some (n.2.key, n.2.info) : Option (Key × Info)) = none := hc
      exact Option.noConfusion h0
    · rw [checkStep_eq_sleep s now hl hn]

theorem waitLoop_delivers :
    ∀ (clocks : List Nat) (s : TimedQueue Key Info) r,
      waitLoop s clocks = some r →
      ∃ n, s.m_list.getLast? = some n ∧ r.2.1 = n.2.key ∧ r.2.2 = n.2.info ∧
        r.1.m_list = s.m_list.dropLast
  | [], s, r => by
    intro h
    simp [waitLoop] at h
  | now :: rest, s, r => by
    intro h
    rw [waitLoop] at h
    cases hc : (checkStep s now).2.1 with
    | some d =>
      rw [hc] at h
      cases h
      cases hl : s.m_list.getLast? with
      | none =>
        rw [checkStep_eq_empty s now hl] at hc
        have h0 : (none : Option (Key × Info)) = some d := hc
        exact Option.noConfusion h0
      | some n =>
        by_cases hn : n.2.time < now
        · rw [checkStep_eq_deliver s now hl hn] at hc
          have h0 : (some (n.2.key, n.2.info) : Option (Key × Info)) = some d := hc
          have hd := Option.some.inj h0
          refine ⟨n, rfl, ?_, ?_, ?_⟩
          · show d.1 = n.2.key
            rw [← hd]
          · show d.2 = n.2.info
            rw [← hd]
          · show (checkStep s now).1.m_list = s.m_list.dropLast
            rw [checkStep_eq_deliver s now hl hn]
        · rw [checkStep_eq_sleep s now hl hn] at hc
          have h0 : (none : Option (Key × Info)) = some d := hc
          exact Option.noConfusion h0
    | none =>
      rw [hc] at h
      rw [checkStep_none_state s now hc] at h
      exact waitLoop_delivers rest s r h

/-- A call of `waitUntilExpired` that returns without invoking the callback
is exactly a call on an empty queue with the shutdown flag set, and it
leaves the state untouched. -/
theorem wait_return_nocall (s : TimedQueue Key Info) (clocks : List Nat)
    (s' : TimedQueue Key Info) :
    waitUntilExpired s clocks = some (s', none) ↔
      s.m_list = [] ∧ s.m_break = true ∧ s' = s := by
  constructor
  · intro h
    unfold waitUntilExpired at h
    by_cases he : s.m_list.isEmpty = true
    · rw [if_pos he] at h
      by_cases hb : s.m_break = true
      · rw [if_pos hb] at h
        have h2 := Option.some.inj h
        have h3 : s = s' := congrArg Prod.fst h2
        exact ⟨List.isEmpty_iff.mp he, hb, h3.symm⟩
      · rw [if_neg hb] at h
        exact Option.noConfusion h
    · rw [if_neg he] at h
      cases hl : waitLoop s clocks with
      | none =>
        rw [hl] at h
        exact Option.noConfusion h
      | some q =>
        rw [hl] at h
        have h2 := Option.some.inj h
        have h3 : (some q.2 : Option (Key × Info)) = none := congrArg Prod.snd h2
        exact Option.noConfusion h3
  · rintro ⟨he, hb, rfl⟩
    unfold waitUntilExpired
    rw [he]
    simp [hb]

/-- A call of `waitUntilExpired` that invokes the callback delivers the
entry at the back (oldest end) of the sequence and pops exactly it. -/
theorem wait_delivers (s : TimedQueue Key Info) (clocks : List Nat)
    (s' : TimedQueue Key Info) (k : Key) (i : Info)
    (h : waitUntilExpired s clocks = some (s', some (k, i))) :
    ∃ n, s.m_list.getLast? = some n ∧ k = n.2.key ∧ i = n.2.info ∧
      s'.m_list = s.m_list.dropLast := by
  unfold waitUntilExpired at h
  by_cases he : s.m_list.isEmpty = true
  · rw [if_pos he] at h
    by_cases hb : s.m_break = true
    · rw [if_pos hb] at h
      have h2 : (none : Option (Key × Info)) = some (k, i) :=
        congrArg Prod.snd (Option.some.inj h)
      exact Option.noConfusion h2
    · rw [if_neg hb] at h
      exact Option.noConfusion h
  · rw [if_neg he] at h
    cases hl : waitLoop s clocks with
    | none =>
      rw [hl] at h
      exact Option.noConfusion h
    | some q =>
      rw [hl] at h
      have h2 := Option.some.inj h
      have hs' : q.1 = s' := congrArg Prod.fst h2
      have hq2 : q.2 = (k, i) :=
        Option.some.inj (congrArg Prod.snd h2)
      obtain ⟨n, hn, hk2, hi2, hlist⟩ := waitLoop_delivers clocks s q hl
      have hkk : k = q.2.1 := by rw [hq2]
      have hii : i = q.2.2 := by rw [hq2]
      refine ⟨n, hn, hkk.trans hk2, hii.trans hi2, ?_⟩
      rw [← hs']
      exact hlist

/-- Direct computation: when the oldest entry is already expired at the
first clock reading, `waitUntilExpired` pops and delivers it at once. -/
theorem wait_single_deliver (s : TimedQueue Key Info) (now : Nat) (rest : List Nat)
    {l0 : List (Nat × Element Key Info)} {e : Nat × Element Key Info}
    (hl : s.m_list = l0 ++ [e]) (he : e.2.time < now) :
    waitUntilExpired s (now :: rest) =
      some ({ s with m_list := l0,
                     m_map := s.m_map.eraseP (fun p => decide (p.1 = e.2.key)) },
            some (e.2.key, e.2.info)) := by
  have hempty : s.m_list.isEmpty = false := by
    rw [hl]
    cases l0 <;> rfl
  have hgl : s.m_list.getLast? = some e := by
    rw [hl]
    exact List.getLast?_concat l0
  have hstep := checkStep_eq_deliver s now hgl he
  unfold waitUntilExpired
  rw [if_neg (by simp [hempty])]
  rw [waitLoop, hstep]
  dsimp only [Option.map]
  rw [hl, List.dropLast_concat]

theorem drain_spec :
    ∀ (fuel : Nat) (s : TimedQueue Key Info) (now : Nat),
      (∀ n ∈ s.m_list, n.2.time < now) → s.m_list.length = fuel →
      drain s now fuel = s.m_list.reverse.map (fun n => (n.2.key, n.2.info))
  | 0, s, now => by
    intro _ hlen
    have h0 : s.m_list = [] := List.length_eq_zero.mp hlen
    rw [h0]
    rfl
  | fuel + 1, s, now => by
    intro hall hlen
    obtain ⟨e, he⟩ : ∃ e, s.m_list.getLast? = some e := by
      cases hg : s.m_list.getLast? with
      | none =>
        have h0 : s.m_list = [] := List.getLast?_eq_none.mp hg
        rw [h0] at hlen
        exact absurd hlen (by simp)
      | some e => exact ⟨e, rfl⟩
    have hdec := dropLast_append_of_getLast? he
    have hexp : e.2.time < now := by
      refine hall e ?_
      rw [← hdec]
      exact List.mem_append.mpr (Or.inr (List.mem_singleton_self e))
    have hw := wait_single_deliver s now [] hdec.symm hexp
    rw [drain, hw]
    dsimp only
    have ih := drain_spec fuel
      { s with m_list := s.m_list.dropLast,
               m_map := s.m_map.eraseP (fun p => decide (p.1 = e.2.key)) } now
      (by
        intro n hn
        refine hall n ?_
        exact (List.dropLast_sublist s.m_list).subset hn)
      (by
        show s.m_list.dropLast.length = fuel
        rw [List.length_dropLast, hlen]
        rfl)
    rw [ih]
    show (e.2.key, e.2.info) :: List.map _ s.m_list.dropLast.reverse = _
    rw [← hdec, List.reverse_append, List.dropLast_concat]
    simp

/-- After `reQueue key`, the new node is the only entry carrying `key`. -/
theorem reQueue_filter_key (s : TimedQueue Key Info) (key : Key) (info : Info)
    (now : Nat) (h : WF s) :
    (reQueue s key info now).m_list.filter (fun n => decide (n.2.key = key)) =
      [(s.nextId, ⟨key, now + s.m_delay, info⟩)] := by
  have hg := (unsafeRemove_key_gone s key h).1
  have hrest : (unsafeRemove s key).m_list.filter (fun n => decide (n.2.key = key)) = [] :=
    List.filter_eq_nil.mpr (fun n hn => by simp [hg n hn])
  show (((unsafeRemove s key).nextId,
      (⟨key, now + (unsafeRemove s key).m_delay, info⟩ : Element Key Info)) ::
      (unsafeRemove s key).m_list).filter (fun n => decide (n.2.key = key)) = _
  rw [List.filter_cons]
  simp [hrest]

/-! The claims. -/

/-- C1: for every key and payload, `reQueue(key, info)` always succeeds and
leaves exactly one live entry for `key`: any previous entry for `key` is
removed first through the same removal path as `remove`, and a new entry
`{key, now + delay, info}` is pushed at the newest end (the front) of the
sequence, with its position (node id) recorded in the index; after any
sequence of `reQueue` calls with the same key, only the most recently
inserted payload and expiration time for that key are present. -/
theorem claim_C1_reQueue (s : TimedQueue Key Info) (key : Key) (info : Info)
    (now : Nat) (h : WF s) :
    reQueue s key info now =
      { remove s key with
        m_list := (s.nextId, ⟨key, now + s.m_delay, info⟩) :: (remove s key).m_list,
        m_map := (key, s.nextId) :: (remove s key).m_map,
        nextId := s.nextId + 1 } ∧
    (reQueue s key info now).m_list.head? =
      some (s.nextId, ⟨key, now + s.m_delay, info⟩) ∧
    mapFind (reQueue s key info now).m_map key = some s.nextId ∧
    (reQueue s key info now).m_list.filter (fun n => decide (n.2.key = key)) =
      [(s.nextId, ⟨key, now + s.m_delay, info⟩)] := by
  refine ⟨?_, ?_, ?_, reQueue_filter_key s key info now h⟩
  · show reQueue s key info now = _
    simp [reQueue, remove]
  · show (((unsafeRemove s key).nextId,
        (⟨key, now + (unsafeRemove s key).m_delay, info⟩ : Element Key Info)) ::
        (unsafeRemove s key).m_list).head? = _
    simp
  · show mapFind ((key, (unsafeRemove s key).nextId) :: (unsafeRemove s key).m_map) key
        = some s.nextId
    simp [mapFind]

theorem claim_C1_witness :
    WF (TimedQueue.init 3 : TimedQueue Nat Nat) ∧
    mapFind (reQueue (TimedQueue.init 3 : TimedQueue Nat Nat) 1 5 2).m_map 1 = some 0 :=
  ⟨by decide, (claim_C1_reQueue (TimedQueue.init 3) 1 5 2 (by decide)).2.2.1⟩

/-- C2 counterexample: the claim says the oldest entry is consumed as soon
as `now >= entry.expiresAt`, but the code tests `now > element->time`
strictly: at `now = expiresAt` (here both are 5) the consumer removes
nothing, delivers nothing, and computes a sleep of `expiresAt - now = 0`
instead of consuming the entry. -/
theorem claim_C2_counterexample :
    (5 : Nat) ≥ 5 ∧
    checkStep (⟨[(1, 0)], [(0, ⟨1, 5, 7⟩)], 5, false, 1⟩ : TimedQueue Nat Nat) 5 =
      ((⟨[(1, 0)], [(0, ⟨1, 5, 7⟩)], 5, false, 1⟩ : TimedQueue Nat Nat), none, 0) := by
  decide

/-- C2 (amended): in the polling loop, with `e` the oldest entry, if
`now > e.expiresAt` (strictly) the consumer pops `e` from the sequence,
erases its key from the index and delivers `(e.key, e.info)` exactly once;
if `now ≤ e.expiresAt` it removes nothing and the computed sleep duration
is exactly `e.expiresAt - now`. -/
theorem claim_C2_amended (s : TimedQueue Key Info) (now : Nat)
    (l0 : List (Nat × Element Key Info)) (e : Nat × Element Key Info)
    (hl : s.m_list = l0 ++ [e]) :
    (e.2.time < now →
      checkStep s now =
        ({ s with m_list := l0,
                  m_map := s.m_map.eraseP (fun p => decide (p.1 = e.2.key)) },
         some (e.2.key, e.2.info), 0)) ∧
    (now ≤ e.2.time → checkStep s now = (s, none, e.2.time - now)) := by
  have hgl : s.m_list.getLast? = some e := by
    rw [hl]
    exact List.getLast?_concat l0
  constructor
  · intro hn
    rw [checkStep_eq_deliver s now hgl hn, hl, List.dropLast_concat]
  · intro hn
    exact checkStep_eq_sleep s now hgl (Nat.not_lt.mpr hn)

theorem claim_C2_witness :
    ((⟨[(1, 0)], [(0, ⟨1, 5, 7⟩)], 5, false, 1⟩ : TimedQueue Nat Nat).m_list
        = [] ++ [(0, ⟨1, 5, 7⟩)]) ∧
    checkStep (⟨[(1, 0)], [(0, ⟨1, 5, 7⟩)], 5, false, 1⟩ : TimedQueue Nat Nat) 6 =
      (⟨[], [], 5, false, 1⟩, some (1, 7), 0) := by
  constructor
  · rfl
  · have h := (claim_C2_amended
      (⟨[(1, 0)], [(0, ⟨1, 5, 7⟩)], 5, false, 1⟩ : TimedQueue Nat Nat)
      6 [] (0, ⟨1, 5, 7⟩) rfl).1 (by decide)
    rw [h]
    rfl

/-- C3: expired entries are delivered in FIFO (insertion) order: every
`waitUntilExpired` call that invokes the callback consumes the entry at
the oldest end (the back) of the sequence, and draining a fully expired
queue by repeated consumer calls delivers exactly the entries of the
sequence from oldest to newest, i.e. in insertion order. -/
theorem claim_C3_fifo :
    (∀ (s s' : TimedQueue Key Info) (clocks : List Nat) (k : Key) (i : Info),
        waitUntilExpired s clocks = some (s', some (k, i)) →
        ∃ n, s.m_list.getLast? = some n ∧ k = n.2.key ∧ i = n.2.info ∧
          s'.m_list = s.m_list.dropLast) ∧
    (∀ (s : TimedQueue Key Info) (now : Nat),
        (∀ n ∈ s.m_list, n.2.time < now) →
        drain s now s.m_list.length =
          s.m_list.reverse.map (fun n => (n.2.key, n.2.info))) :=
  ⟨fun s s' clocks k i h => wait_delivers s clocks s' k i h,
   fun s now h => drain_spec s.m_list.length s now h rfl⟩

theorem claim_C3_witness :
    (∀ n ∈ (⟨[(2, 0), (3, 1)], [(1, ⟨3, 4, 30⟩), (0, ⟨2, 3, 20⟩)], 2, false, 2⟩ :
        TimedQueue Nat Nat).m_list, n.2.time < 10) ∧
    drain (⟨[(2, 0), (3, 1)], [(1, ⟨3, 4, 30⟩), (0, ⟨2, 3, 20⟩)], 2, false, 2⟩ :
        TimedQueue Nat Nat) 10 2 = [(2, 20), (3, 30)] := by
  constructor
  · decide
  · have h := (@claim_C3_fifo Nat Nat _).2
      (⟨[(2, 0), (3, 1)], [(1, ⟨3, 4, 30⟩), (0, ⟨2, 3, 20⟩)], 2, false, 2⟩ :
        TimedQueue Nat Nat) 10 (by decide)
    exact h.trans rfl

/-- C4: in every state reachable by a timestamped trace of operations with
a non-decreasing clock, the sequence is sorted by expiration time (newest,
hence latest-expiring, at the front; oldest at the back), so insertion
order equals expiration order; moreover each single operation preserves
this ordering. -/
theorem claim_C4_sorted (delay : Nat) (tr : List (Nat × Op Key Info))
    (h : List.Chain' (fun a b => a ≤ b) (tr.map Prod.fst)) :
    timesDesc (run delay tr) ∧
    (∀ (s : TimedQueue Key Info) (now now' : Nat) (op : Op Key Info),
      timesDesc s → timesBounded s now → now ≤ now' →
      timesDesc (applyOp s now' op) ∧ timesBounded (applyOp s now' op) now') := by
  constructor
  · refine runFrom_sorted tr (TimedQueue.init delay) 0 ?_ ?_ (chain_zero_of_chain' _ h)
    · show List.Pairwise _ ([] : List (Nat × Element Key Info))
      exact List.Pairwise.nil
    · intro n hn
      exact absurd hn (List.not_mem_nil n)
  · intro s now now' op hd hb hle
    exact step_sorted s now now' op hd hb hle

theorem claim_C4_witness :
    List.Chain' (fun a b => a ≤ b)
      (([(0, Op.reQueueOp 1 10), (1, Op.reQueueOp 2 20), (3, Op.removeOp 1)] :
        List (Nat × Op Nat Nat)).map Prod.fst) ∧
    timesDesc (run 2
      ([(0, Op.reQueueOp 1 10), (1, Op.reQueueOp 2 20), (3, Op.removeOp 1)] :
        List (Nat × Op Nat Nat))) := by
  constructor
  · simp [List.chain'_cons, List.chain'_singleton]
  · exact (claim_C4_sorted 2
      ([(0, Op.reQueueOp 1 10), (1, Op.reQueueOp 2 20), (3, Op.removeOp 1)] :
        List (Nat × Op Nat Nat))
      (by simp [List.chain'_cons, List.chain'_singleton])).1

/-- C5: a `waitUntilExpired` call returns without invoking the callback
exactly when the sequence is empty and the shutdown flag is set, and in
that case it returns immediately with the queue state unmodified; every
other returning call has invoked the callback. -/
theorem claim_C5_shutdown_return (s : TimedQueue Key Info) (clocks : List Nat)
    (s' : TimedQueue Key Info) :
    waitUntilExpired s clocks = some (s', none) ↔
      s.m_list = [] ∧ s.m_break = true ∧ s' = s :=
  wait_return_nocall s clocks s'

/-- C6 counterexample: the claim says the no-callback outcome is
distinguishable from the callback-invoked outcome via the operation's
result, but the C++ `waitUntilExpired` returns `void`: here one call
returns after invoking the callback and another returns without invoking
it, yet the value each caller receives over the return channel is the
same unit value. -/
theorem claim_C6_counterexample :
    voidReturn (waitUntilExpired (⟨[], [], 5, true, 0⟩ : TimedQueue Nat Nat) []) =
      voidReturn (waitUntilExpired
        (⟨[(1, 0)], [(0, ⟨1, 2, 7⟩)], 2, false, 1⟩ : TimedQueue Nat Nat) [5]) ∧
    waitUntilExpired (⟨[], [], 5, true, 0⟩ : TimedQueue Nat Nat) [] =
      some (⟨[], [], 5, true, 0⟩, none) ∧
    waitUntilExpired (⟨[(1, 0)], [(0, ⟨1, 2, 7⟩)], 2, false, 1⟩ : TimedQueue Nat Nat) [5] =
      some (⟨[], [], 2, false, 1⟩, some (1, 7)) := by
  decide

/-- C6 (amended): the two outcomes of a returning `waitUntilExpired` call
are distinguishable only through the callback itself, not through the
`void` return value: a returning call has invoked `onExpired` exactly
once unless the queue was empty with the shutdown flag set, and the value
returned to the caller is always the same unit value. -/
theorem claim_C6_amended (s : TimedQueue Key Info) (clocks : List Nat)
    (s' : TimedQueue Key Info) (out : Option (Key × Info))
    (h : waitUntilExpired s clocks = some (s', out)) :
    (out.isSome = true ↔ ¬(s.m_list = [] ∧ s.m_break = true)) ∧
    voidReturn (waitUntilExpired s clocks) = some () := by
  constructor
  · cases out with
    | none =>
      obtain ⟨he, hb, _⟩ := (wait_return_nocall s clocks s').mp h
      simp [he, hb]
    | some d =>
      simp only [Option.isSome_some, true_iff]
      intro hc
      have h2 := (wait_return_nocall s clocks s).mpr ⟨hc.1, hc.2, rfl⟩
      rw [h2] at h
      have h3 : (none : Option (Key × Info)) = some d :=
        congrArg Prod.snd (Option.some.inj h)
      exact Option.noConfusion h3
  · rw [h]
    rfl

theorem claim_C6_witness :
    waitUntilExpired (⟨[(1, 0)], [(0, ⟨1, 2, 7⟩)], 2, false, 1⟩ : TimedQueue Nat Nat) [5] =
      some (⟨[], [], 2, false, 1⟩, some (1, 7)) ∧
    ((some (1, 7) : Option (Nat × Nat)).isSome = true ↔
      ¬((⟨[(1, 0)], [(0, ⟨1, 2, 7⟩)], 2, false, 1⟩ : TimedQueue Nat Nat).m_list = [] ∧
        (⟨[(1, 0)], [(0, ⟨1, 2, 7⟩)], 2, false, 1⟩ : TimedQueue Nat Nat).m_break = true)) :=
  ⟨by decide,
   (claim_C6_amended (⟨[(1, 0)], [(0, ⟨1, 2, 7⟩)], 2, false, 1⟩ : TimedQueue Nat Nat)
      [5] (⟨[], [], 2, false, 1⟩ : TimedQueue Nat Nat) (some (1, 7)) (by decide)).1⟩

/-- C7: on a well-formed state, `remove(key)` removes exactly the entry
carrying `key` from the sequence and exactly its mapping from the index
(everything else, including order and all other fields, is unchanged:
the results are the original structures filtered of `key`), and when no
live entry for `key` exists it is a no-op returning the state unchanged. -/
theorem claim_C7_remove (s : TimedQueue Key Info) (key : Key) (h : WF s) :
    (remove s key).m_list = s.m_list.filter (fun n => !decide (n.2.key = key)) ∧
    (remove s key).m_map = s.m_map.filter (fun p => !decide (p.1 = key)) ∧
    (remove s key).m_delay = s.m_delay ∧
    (remove s key).m_break = s.m_break ∧
    (remove s key).nextId = s.nextId ∧
    ((∀ n ∈ s.m_list, n.2.key ≠ key) → remove s key = s) := by
  have heq := unsafeRemove_eq_of_wf s key h
  obtain ⟨h1, _, _, _, _, _, _⟩ := h
  refine ⟨?_, ?_, unsafeRemove_delay s key, unsafeRemove_break s key,
    unsafeRemove_nextId s key, ?_⟩
  · show (unsafeRemove s key).m_list = _
    rw [heq]
  · show (unsafeRemove s key).m_map = _
    rw [heq]
  · intro habs
    show unsafeRemove s key = s
    rw [heq]
    have hl : s.m_list.filter (fun n => !decide (n.2.key = key)) = s.m_list :=
      List.filter_eq_self.mpr (fun n hn => by simp [habs n hn])
    have hm : s.m_map.filter (fun p => !decide (p.1 = key)) = s.m_map :=
      List.filter_eq_self.mpr (fun p hp => by
        obtain ⟨n, hn, _, hnk⟩ := h1 p hp
        have hne := habs n hn
        rw [hnk] at hne
        simp [hne])
    rw [hl, hm]

theorem claim_C7_witness :
    WF (⟨[(1, 0), (2, 1)], [(1, ⟨2, 4, 20⟩), (0, ⟨1, 3, 10⟩)], 2, false, 2⟩ :
      TimedQueue Nat Nat) ∧
    (remove (⟨[(1, 0), (2, 1)], [(1, ⟨2, 4, 20⟩), (0, ⟨1, 3, 10⟩)], 2, false, 2⟩ :
      TimedQueue Nat Nat) 1).m_list = [(1, ⟨2, 4, 20⟩)] :=
  ⟨by decide,
   ((claim_C7_remove (⟨[(1, 0), (2, 1)], [(1, ⟨2, 4, 20⟩), (0, ⟨1, 3, 10⟩)], 2, false, 2⟩ :
      TimedQueue Nat Nat) 1 (by decide)).1).trans rfl⟩

/-- C8: `notify` (requestShutdown) is idempotent and only sets the shutdown
flag: a second call yields the identical state, and the sequence, index,
delay and id allocator are untouched. -/
theorem claim_C8_notify_idempotent (s : TimedQueue Key Info) :
    notify (notify s) = notify s ∧ (notify s).m_break = true ∧
    (notify s).m_list = s.m_list ∧ (notify s).m_map = s.m_map ∧
    (notify s).m_delay = s.m_delay ∧ (notify s).nextId = s.nextId :=
  ⟨rfl, rfl, rfl, rfl, rfl, rfl⟩

/-- C9: in every reachable state the index and the entry sequence are
mutually consistent (the full structural invariant `WF` holds): a key is
in the index exactly when an entry with that key is in the sequence, each
key occurs in the sequence at most once, and each index mapping designates
the sequence node holding that key's entry; all operations preserve this. -/
theorem claim_C9_consistency (delay : Nat) (tr : List (Nat × Op Key Info)) :
    WF (run delay tr) ∧
    (∀ k : Key, (∃ i, (k, i) ∈ (run delay tr).m_map) ↔
      (∃ n ∈ (run delay tr).m_list, n.2.key = k)) ∧
    ((run delay tr).m_list.map (fun n => n.2.key)).Nodup := by
  have h := wf_run delay tr
  obtain ⟨h1, h2, _, hkeys, _, _, _⟩ := h
  refine ⟨wf_run delay tr, ?_, hkeys⟩
  intro k
  constructor
  · rintro ⟨i, hk⟩
    obtain ⟨n, hn, _, hnk⟩ := h1 (k, i) hk
    exact ⟨n, hn, hnk⟩
  · rintro ⟨n, hn, rfl⟩
    exact ⟨n.1, h2 n hn⟩

/-- C10: shutdown is irreversible: once the shutdown flag is set, no
operation of the queue ever clears it, and every subsequent blocking-wait
call on an empty queue returns immediately, unchanged state, without
invoking the callback. -/
theorem claim_C10_shutdown_irreversible (s : TimedQueue Key Info)
    (h : s.m_break = true) :
    (∀ (now : Nat) (op : Op Key Info), (applyOp s now op).m_break = true) ∧
    (s.m_list = [] → ∀ clocks : List Nat,
      waitUntilExpired s clocks = some (s, none)) := by
  constructor
  · intro now op
    exact applyOp_break_mono s now op h
  · intro he clocks
    exact (wait_return_nocall s clocks s).mpr ⟨he, h, rfl⟩

theorem claim_C10_witness :
    (notify (TimedQueue.init 5) : TimedQueue Nat Nat).m_break = true ∧
    waitUntilExpired (notify (TimedQueue.init 5) : TimedQueue Nat Nat) [] =
      some (notify (TimedQueue.init 5), none) :=
  ⟨rfl, (claim_C10_shutdown_irreversible (notify (TimedQueue.init 5)) rfl).2 rfl []⟩

end WCDB
